import Mathlib

/-!
Verification of the euclidean-rhythm library (src/lib.rs).

The library computes Euclidean rhythm patterns with Bjorklund's algorithm:

* `euclidean steps pulses rotation` validates its inputs, handles the
  degenerate cases `pulses == 0` and `pulses == steps`, otherwise runs
  `bjorklund` and applies a left rotation by `rotation % steps`;
* `bjorklund` builds `pulses` singleton `[true]` groups followed by
  `steps - pulses` singleton `[false]` groups and repeatedly pairs the
  "right" partition onto the "left" partition until the right partition
  has at most one group, then flattens;
* `rotate_pattern` circularly shifts any boolean pattern by an arbitrary
  integer amount, normalising with `((amount % len) + len) % len` where
  `%` is Rust's truncated remainder (`Int.tmod` here);
* `pattern_to_string` renders a pattern with caller-supplied pulse and
  rest characters (modelled as `List Char`).

The embedding below follows the Rust source line by line; machine
integers (`u8`, `usize`, `i32`) are modelled as `Nat`/`Int`, which is
exact on the reachable value ranges (no Rust arithmetic here can
overflow: `rotation % steps < steps ≤ 255`, and the `i32` normalisation
in `rotate_pattern` stays within `(-len, 2*len)`).
-/

namespace EuclideanRhythm

/-- The two panic conditions of `euclidean` in src/lib.rs lines 63-68.
The spec groups both under a single `InvalidInput` condition; we keep the
two panic sites distinguishable. -/
inductive RhythmError where
  | stepsZero
  | pulsesGtSteps
  deriving DecidableEq

/-- One iteration of the pairing loop body of `bjorklund`
(src/lib.rs lines 190-199): with `numPairs = min num_left num_right`,
append each of the first `numPairs` right-side groups onto the left-side
group at the same relative index, then drain the consumed right-side
groups.  The groups at indices `numPairs ≤ i < splitIdx` and
`splitIdx + numPairs ≤ i` are untouched. -/
def mergeStep (pattern : List (List Bool)) (splitIdx : Nat) : List (List Bool) :=
  let numPairs := min splitIdx (pattern.length - splitIdx)
  List.zipWith (fun a b => a ++ b) (pattern.take numPairs)
      ((pattern.drop splitIdx).take numPairs)
    ++ (pattern.drop numPairs).take (splitIdx - numPairs)
    ++ pattern.drop (splitIdx + numPairs)

/-- The `loop` of `bjorklund` (src/lib.rs lines 182-203).  The Rust loop
has no fuel; it stops when `num_right ≤ 1`.  We index by fuel to obtain a
total function; `bjorklundLoop_fuel_irrelevant` below shows any fuel of
at least `pattern.length` yields the loop's fixed point, because each
iteration that does not stop removes at least one group. -/
def bjorklundLoop : Nat → List (List Bool) → Nat → List (List Bool)
  | 0, pattern, _ => pattern
  | fuel + 1, pattern, splitIdx =>
    if pattern.length - splitIdx ≤ 1 then pattern
    else bjorklundLoop fuel (mergeStep pattern splitIdx)
      (min splitIdx (pattern.length - splitIdx))

/-- Initial group list of `bjorklund` (src/lib.rs lines 167-177):
`pulses` copies of `[true]` followed by `steps - pulses` copies of
`[false]`. -/
def bjorklundInit (steps pulses : Nat) : List (List Bool) :=
  List.replicate pulses [true] ++ List.replicate (steps - pulses) [false]

/-- The general pairing path of `bjorklund` (src/lib.rs lines 166-206),
without the `pulses == 1` short-circuit: run the loop from the initial
group list with split index `pulses`, then flatten.  The initial list has
`steps` groups, so `steps` fuel is more than the loop can consume. -/
def bjorklundGeneral (steps pulses : Nat) : List Bool :=
  (bjorklundLoop steps (bjorklundInit steps pulses) pulses).flatten

/-- Core Bjorklund algorithm (src/lib.rs lines 151-207).  The
`pulses == 1` short-circuit writes `true` at index 0 of an all-`false`
pattern; the `pulses == 0` and `pulses == steps` cases return an empty
vector (handled by the caller); otherwise the pairing loop runs. -/
def bjorklund (steps pulses : Nat) : List Bool :=
  if pulses = 1 then
    (List.replicate steps false).set 0 true
  else if pulses = 0 ∨ pulses = steps then
    []
  else
    bjorklundGeneral steps pulses

/-- Public entry point `euclidean` (src/lib.rs lines 62-84).  Panics are
modelled as `Except.error`.  The final rotation is Rust's
`Vec::rotate_left rot` with `rot = rotation % steps < steps`, which on a
vector of length `steps` is `drop rot ++ take rot`. -/
def euclidean (steps pulses rotation : Nat) : Except RhythmError (List Bool) :=
  if steps = 0 then
    Except.error RhythmError.stepsZero
  else if steps < pulses then
    Except.error RhythmError.pulsesGtSteps
  else if pulses = 0 then
    Except.ok (List.replicate steps false)
  else if pulses = steps then
    Except.ok (List.replicate steps true)
  else
    Except.ok (if 0 < rotation % steps then
      (bjorklund steps pulses).drop (rotation % steps) ++
        (bjorklund steps pulses).take (rotation % steps)
    else
      bjorklund steps pulses)

/-- String rendering `pattern_to_string` (src/lib.rs lines 99-104); a
Rust `String` is a sequence of characters, modelled as `List Char`. -/
def pattern_to_string (pattern : List Bool) (pulse_char rest_char : Char) :
    List Char :=
  pattern.map (fun b => if b then pulse_char else rest_char)

/-- Standalone rotation utility `rotate_pattern` (src/lib.rs lines
127-140).  Rust's `%` on `i32` is the truncated remainder `Int.tmod`; the
normalised amount `((rotation % len) + len) % len` lands in `[0, len)`
and the two `extend_from_slice` calls produce `drop n ++ take n`. -/
def rotate_pattern (pattern : List Bool) (rotation : Int) : List Bool :=
  if pattern.isEmpty then
    []
  else
    let len : Int := pattern.length
    let normalized := ((Int.tmod rotation len) + len).tmod len
    pattern.drop normalized.toNat ++ pattern.take normalized.toNat

/-! Conservation of the pairing step.  Both the total number of steps
and the number of pulses in the flattened group list are invariant under
`mergeStep`: the step only regroups the same booleans.  We prove it once
for any additive function on boolean lists. -/

/-- For an additive list measure, flattening distributes over append. -/
theorem flatten_hom_append (f : List Bool → Nat)
    (hf : ∀ a b, f (a ++ b) = f a + f b) (X Y : List (List Bool)) :
    f (X ++ Y).flatten = f X.flatten + f Y.flatten := by
  rw [List.flatten_append, hf]

/-- Zipping two equally long group lists with append preserves the total
of an additive measure. -/
theorem flatten_hom_zipWith (f : List Bool → Nat)
    (hf : ∀ a b, f (a ++ b) = f a + f b) :
    ∀ A B : List (List Bool), A.length = B.length →
      f (List.zipWith (fun a b => a ++ b) A B).flatten =
        f A.flatten + f B.flatten := by
  intro A
  induction A with
  | nil =>
    intro B hB
    have hB0 : B = [] := by
      cases B <;> simp_all
    have h0 : f [] = 0 := by
      have h := hf [] []
      simp at h
      omega
    subst hB0
    simp [h0]
  | cons a A ih =>
    intro B hB
    cases B with
    | nil => simp at hB
    | cons b B =>
      simp only [List.zipWith_cons_cons, List.flatten_cons, hf]
      rw [ih B (by simpa using hB)]
      omega

/-- Any list splits into the four contiguous blocks that `mergeStep`
rearranges. -/
theorem mergeStep_blocks (p : List (List Bool)) (s np : Nat) (h : np ≤ s) :
    p = p.take np ++ ((p.drop np).take (s - np) ++
      ((p.drop s).take np ++ p.drop (s + np))) := by
  conv_lhs => rw [← List.take_append_drop np p]
  congr 1
  conv_lhs => rw [← List.take_append_drop (s - np) (p.drop np)]
  congr 1
  rw [List.drop_drop]
  have hnp : np + (s - np) = s := by omega
  rw [hnp]
  conv_lhs => rw [← List.take_append_drop np (p.drop s)]
  rw [List.drop_drop]

/-- An additive measure of the flattened group list is unchanged by one
pairing step. -/
theorem mergeStep_flatten_hom (f : List Bool → Nat)
    (hf : ∀ a b, f (a ++ b) = f a + f b)
    (p : List (List Bool)) (s : Nat) :
    f (mergeStep p s).flatten = f p.flatten := by
  unfold mergeStep
  have hnp1 : min s (p.length - s) ≤ s := Nat.min_le_left _ _
  have hnp2 : min s (p.length - s) ≤ p.length - s := Nat.min_le_right _ _
  have hlenA : (p.take (min s (p.length - s))).length = min s (p.length - s) := by
    simp
  have hlenC : ((p.drop s).take (min s (p.length - s))).length
      = min s (p.length - s) := by
    simp
  rw [flatten_hom_append f hf, flatten_hom_append f hf,
    flatten_hom_zipWith f hf _ _ (hlenA.trans hlenC.symm)]
  conv_rhs => rw [mergeStep_blocks p s (min s (p.length - s)) hnp1]
  rw [flatten_hom_append f hf, flatten_hom_append f hf, flatten_hom_append f hf]
  omega

/-- The number of groups after one pairing step drops by exactly the
number of pairs merged. -/
theorem mergeStep_length (p : List (List Bool)) (s : Nat) (hs : s ≤ p.length) :
    (mergeStep p s).length = p.length - min s (p.length - s) := by
  unfold mergeStep
  have hnp1 : min s (p.length - s) ≤ s := Nat.min_le_left _ _
  have hnp2 : min s (p.length - s) ≤ p.length - s := Nat.min_le_right _ _
  simp [List.length_zipWith]
  omega

/-- An additive measure of the flattened group list is unchanged by the
whole pairing loop, whatever the fuel. -/
theorem bjorklundLoop_flatten_hom (f : List Bool → Nat)
    (hf : ∀ a b, f (a ++ b) = f a + f b) :
    ∀ (fuel : Nat) (p : List (List Bool)) (s : Nat), s ≤ p.length →
      f (bjorklundLoop fuel p s).flatten = f p.flatten := by
  intro fuel
  induction fuel with
  | zero => intro p s _; rfl
  | succ fuel ih =>
    intro p s hs
    show f (if p.length - s ≤ 1 then p
      else bjorklundLoop fuel (mergeStep p s) (min s (p.length - s))).flatten
        = f p.flatten
    split_ifs with hstop
    · rfl
    · have hmin : min s (p.length - s) ≤ (mergeStep p s).length := by
        rw [mergeStep_length p s hs]
        omega
      rw [ih (mergeStep p s) (min s (p.length - s)) hmin,
        mergeStep_flatten_hom f hf p s]

/-- Flattening a list of singleton groups yields the repeated element. -/
theorem flatten_replicate_singleton (n : Nat) (x : Bool) :
    (List.replicate n [x]).flatten = List.replicate n x := by
  induction n with
  | zero => rfl
  | succ n ih => simp [List.replicate_succ, ih]

/-- C1: the concrete scenarios: euclidean 8 3 0, 8 5 0, 12 5 0 and
16 7 0 produce the documented tresillo, bell, Persian and bossa nova
patterns, and euclidean 8 3 10 (rotation 10 mod 8 = 2) equals
euclidean 8 3 0 rotated left by 2 positions. -/
theorem euclidean_concrete_scenarios :
    euclidean 8 3 0 =
      Except.ok [true, false, false, true, false, false, true, false] ∧
    euclidean 8 5 0 =
      Except.ok [true, false, true, true, false, true, true, false] ∧
    euclidean 12 5 0 =
      Except.ok [true, false, false, true, false, true,
        false, false, true, false, true, false] ∧
    euclidean 16 7 0 =
      Except.ok [true, false, false, true, false, true, false, true,
        false, false, true, false, true, false, true, false] ∧
    euclidean 8 3 10 = (euclidean 8 3 0).map (fun p => rotate_pattern p 2) :=
  ⟨rfl, rfl, rfl, rfl, rfl⟩

/-- Defining equation of the pairing step with the pair count spelled
out. -/
theorem mergeStep_def (p : List (List Bool)) (s : Nat) :
    mergeStep p s =
      List.zipWith (fun a b => a ++ b) (p.take (min s (p.length - s)))
          ((p.drop s).take (min s (p.length - s)))
        ++ (p.drop (min s (p.length - s))).take (s - min s (p.length - s))
        ++ p.drop (s + min s (p.length - s)) := rfl

/-- Defining equation of the fueled loop. -/
theorem bjorklundLoop_succ (fuel : Nat) (p : List (List Bool)) (s : Nat) :
    bjorklundLoop (fuel + 1) p s =
      if p.length - s ≤ 1 then p
      else bjorklundLoop fuel (mergeStep p s) (min s (p.length - s)) := rfl

/-- Helper: increasing the fuel past the group-list length cannot change
the result of the pairing loop. -/
theorem bjorklundLoop_fuel_mono :
    ∀ (f : Nat) (p : List (List Bool)) (s g : Nat), 1 ≤ s → s ≤ p.length →
      p.length ≤ f → f ≤ g → bjorklundLoop f p s = bjorklundLoop g p s := by
  intro f
  induction f with
  | zero =>
    intro p s g h1 h2 h3 _
    omega
  | succ f ih =>
    intro p s g h1 h2 h3 h4
    obtain ⟨g, rfl⟩ : ∃ g0, g = g0 + 1 := ⟨g - 1, by omega⟩
    rw [bjorklundLoop_succ, bjorklundLoop_succ]
    split_ifs with hstop
    · rfl
    · have hml := mergeStep_length p s h2
      apply ih
      · omega
      · rw [hml]
        omega
      · rw [hml]
        omega
      · omega

/-- C9: the pairing loop terminates: every iteration that does not hit
the stop condition (num_right ≤ 1 with num_left ≥ 1) removes at least
one group, so the group list strictly shrinks; consequently the fueled
loop is already at its fixed point for any fuel of at least the
group-list length, and euclidean is total on all valid inputs. -/
theorem bjorklund_loop_terminates :
    (∀ (p : List (List Bool)) (s : Nat), 1 ≤ s → 2 ≤ p.length - s →
      (mergeStep p s).length < p.length) ∧
    (∀ (p : List (List Bool)) (s f g : Nat),
      1 ≤ s → s ≤ p.length → p.length ≤ f → p.length ≤ g →
      bjorklundLoop f p s = bjorklundLoop g p s) := by
  constructor
  · intro p s h1 h2
    have hs : s ≤ p.length := by omega
    rw [mergeStep_length p s hs]
    omega
  · intro p s f g h1 h2 h3 h4
    rcases le_total f g with h | h
    · exact bjorklundLoop_fuel_mono f p s g h1 h2 h3 h
    · exact (bjorklundLoop_fuel_mono g p s f h1 h2 h4 h).symm

/-- Witness for bjorklund_loop_terminates on the 5-group state of
bjorklund 5 2 and on fuels 5 and 9. -/
theorem bjorklund_loop_terminates_witness :
    (mergeStep [[true], [true], [false], [false], [false]] 2).length < 5 ∧
    bjorklundLoop 5 [[true], [true], [false], [false], [false]] 2 =
      bjorklundLoop 9 [[true], [true], [false], [false], [false]] 2 :=
  ⟨bjorklund_loop_terminates.1 [[true], [true], [false], [false], [false]] 2
      (by decide) (by decide),
    bjorklund_loop_terminates.2 [[true], [true], [false], [false], [false]] 2 5 9
      (by decide) (by decide) (by decide) (by decide)⟩

/-- Flattening the initial group list gives the pulses then the rests. -/
theorem bjorklundInit_flatten (steps pulses : Nat) :
    (bjorklundInit steps pulses).flatten =
      List.replicate pulses true ++ List.replicate (steps - pulses) false := by
  unfold bjorklundInit
  rw [List.flatten_append, flatten_replicate_singleton, flatten_replicate_singleton]

/-- The general pairing path keeps exactly `pulses` pulses and `steps`
total steps. -/
theorem bjorklundGeneral_count_length (steps pulses : Nat) (h : pulses ≤ steps) :
    (bjorklundGeneral steps pulses).count true = pulses ∧
    (bjorklundGeneral steps pulses).length = steps := by
  have hlen : pulses ≤ (bjorklundInit steps pulses).length := by
    simp [bjorklundInit]
  constructor
  · have hc := bjorklundLoop_flatten_hom (fun l => l.count true)
      (fun a b => by simp) steps (bjorklundInit steps pulses) pulses hlen
    simp only [] at hc
    rw [bjorklundGeneral, hc, bjorklundInit_flatten]
    simp [List.count_replicate]
  · have hl := bjorklundLoop_flatten_hom (fun l => l.length)
      (fun a b => by simp) steps (bjorklundInit steps pulses) pulses hlen
    simp only [] at hl
    rw [bjorklundGeneral, hl, bjorklundInit_flatten]
    simp
    omega

/-- Pulse count and length of `bjorklund` on the non-degenerate range. -/
theorem bjorklund_count_length (steps pulses : Nat)
    (h1 : 1 ≤ pulses) (h2 : pulses < steps) :
    (bjorklund steps pulses).count true = pulses ∧
    (bjorklund steps pulses).length = steps := by
  unfold bjorklund
  split_ifs with hp1 hp0
  · subst hp1
    obtain ⟨m, rfl⟩ : ∃ m, steps = m + 1 := ⟨steps - 1, by omega⟩
    simp [List.replicate_succ, List.count_replicate]
  · rcases hp0 with hp0 | hp0 <;> omega
  · exact bjorklundGeneral_count_length steps pulses (le_of_lt h2)

/-- Splitting a count at any take/drop boundary. -/
theorem count_drop_take (l : List Bool) (r : Nat) :
    (l.drop r ++ l.take r).count true = l.count true := by
  conv_rhs => rw [← List.take_append_drop r l]
  rw [List.count_append, List.count_append]
  omega

/-- C2: for every steps ≥ 1, every pulses ≤ steps and every rotation,
euclidean succeeds and its pattern contains exactly pulses true
entries. -/
theorem euclidean_pulse_count (steps pulses rotation : Nat)
    (h1 : 1 ≤ steps) (h2 : pulses ≤ steps) :
    ∃ pat, euclidean steps pulses rotation = Except.ok pat ∧
      pat.count true = pulses := by
  unfold euclidean
  have h0 : ¬ steps = 0 := by omega
  have hlt : ¬ steps < pulses := by omega
  rw [if_neg h0, if_neg hlt]
  split_ifs with hp0 hps hrot
  · exact ⟨_, rfl, by simp [hp0, List.count_replicate]⟩
  · exact ⟨_, rfl, by simp [hps, List.count_replicate]⟩
  · refine ⟨_, rfl, ?_⟩
    rw [count_drop_take]
    exact (bjorklund_count_length steps pulses (by omega) (by omega)).1
  · exact ⟨_, rfl, (bjorklund_count_length steps pulses (by omega) (by omega)).1⟩

/-- Witness for euclidean_pulse_count at steps 8, pulses 3, rotation 5. -/
theorem euclidean_pulse_count_witness :
    ∃ pat, euclidean 8 3 5 = Except.ok pat ∧ pat.count true = 3 :=
  euclidean_pulse_count 8 3 5 (by decide) (by decide)

/-- Length invariant for all valid inputs, any rotation (helper). -/
theorem euclidean_length_all (steps pulses rotation : Nat)
    (h1 : 1 ≤ steps) (h2 : pulses ≤ steps) :
    ∃ pat, euclidean steps pulses rotation = Except.ok pat ∧
      pat.length = steps := by
  unfold euclidean
  have h0 : ¬ steps = 0 := by omega
  have hlt : ¬ steps < pulses := by omega
  rw [if_neg h0, if_neg hlt]
  split_ifs with hp0 hps hrot
  · exact ⟨_, rfl, by simp⟩
  · exact ⟨_, rfl, by simp⟩
  · refine ⟨_, rfl, ?_⟩
    have hl := (bjorklund_count_length steps pulses (by omega) (by omega)).2
    simp [hl]
    omega
  · exact ⟨_, rfl, (bjorklund_count_length steps pulses (by omega) (by omega)).2⟩

/-- C3: for every steps in [1,64] and every pulses ≤ steps, the
unrotated pattern has length exactly steps. -/
theorem euclidean_length_invariant (steps pulses : Nat)
    (h1 : 1 ≤ steps) (_h64 : steps ≤ 64) (h2 : pulses ≤ steps) :
    ∃ pat, euclidean steps pulses 0 = Except.ok pat ∧ pat.length = steps :=
  euclidean_length_all steps pulses 0 h1 h2

/-- Witness for euclidean_length_invariant at steps 12, pulses 5. -/
theorem euclidean_length_invariant_witness :
    ∃ pat, euclidean 12 5 0 = Except.ok pat ∧ pat.length = 12 :=
  euclidean_length_invariant 12 5 (by decide) (by decide) (by decide)

/-- Flattening a merged head group followed by singleton rests. -/
theorem flatten_single (k m : Nat) :
    ((true :: List.replicate k false) :: List.replicate m [false]).flatten
      = true :: List.replicate (k + m) false := by
  rw [List.flatten_cons, flatten_replicate_singleton, List.replicate_add]
  rfl

/-- One pairing step at split index 1 with at least two rest groups
left: one rest moves into the head group. -/
theorem mergeStep_single (k m : Nat) :
    mergeStep ((true :: List.replicate k false) :: List.replicate (m + 2) [false]) 1
      = (true :: List.replicate (k + 1) false) :: List.replicate (m + 1) [false] := by
  unfold mergeStep
  have hmin : min 1 (((true :: List.replicate k false) ::
      List.replicate (m + 2) [false]).length - 1) = 1 := by
    simp
  rw [hmin]
  simp [List.replicate_succ]
  rw [← List.replicate_succ', List.replicate_succ]

/-- Running the pairing loop from a merged head group and m singleton
rest groups with split index 1 appends every rest to the head group. -/
theorem bjorklundLoop_single_pulse :
    ∀ (m k fuel : Nat), m ≤ fuel →
      (bjorklundLoop fuel ((true :: List.replicate k false) ::
          List.replicate m [false]) 1).flatten
        = true :: List.replicate (k + m) false := by
  intro m
  induction m with
  | zero =>
    intro k fuel _
    cases fuel with
    | zero => exact flatten_single k 0
    | succ f =>
      rw [bjorklundLoop_succ, if_pos (by simp)]
      exact flatten_single k 0
  | succ m ih =>
    intro k fuel hf
    obtain ⟨f, rfl⟩ : ∃ f, fuel = f + 1 := ⟨fuel - 1, by omega⟩
    rw [bjorklundLoop_succ]
    cases m with
    | zero =>
      rw [if_pos (by simp)]
      exact flatten_single k 1
    | succ m2 =>
      rw [if_neg (by simp)]
      have hmin : min 1 (((true :: List.replicate k false) ::
          List.replicate (m2 + 2) [false]).length - 1) = 1 := by
        simp
      rw [hmin, mergeStep_single k m2, ih (k + 1) f (by omega)]
      have harith : k + 1 + (m2 + 1) = k + (m2 + 2) := by omega
      rw [harith]

/-- C7: for every steps ≥ 2, the pulses = 1 short-circuit of bjorklund
produces exactly the pattern the general pairing algorithm yields when
run with pulses = 1 on the same steps. -/
theorem bjorklund_single_pulse_equiv (steps : Nat) (h : 2 ≤ steps) :
    bjorklundGeneral steps 1 = bjorklund steps 1 := by
  obtain ⟨m, rfl⟩ : ∃ m, steps = m + 2 := ⟨steps - 2, by omega⟩
  have hinit : bjorklundInit (m + 2) 1 =
      (true :: List.replicate 0 false) :: List.replicate (m + 1) [false] := by
    simp [bjorklundInit, List.replicate_succ]
  have hgen : bjorklundGeneral (m + 2) 1 = true :: List.replicate (m + 1) false := by
    unfold bjorklundGeneral
    rw [hinit, bjorklundLoop_single_pulse (m + 1) 0 (m + 2) (by omega),
      Nat.zero_add]
  rw [hgen]
  unfold bjorklund
  rw [if_pos rfl]
  simp [List.replicate_succ]

/-- Witness for bjorklund_single_pulse_equiv at steps = 5. -/
theorem bjorklund_single_pulse_equiv_witness :
    bjorklundGeneral 5 1 = bjorklund 5 1 :=
  bjorklund_single_pulse_equiv 5 (by decide)

/-- One pairing step keeps the leading true of the first group: the
first group is always on the merged side, and merging only appends to
its tail. -/
theorem mergeStep_head (l : List Bool) (gs : List (List Bool)) (s : Nat)
    (h1 : 1 ≤ s) (h2 : 2 ≤ gs.length + 1 - s) :
    ∃ l2 gs2, mergeStep ((true :: l) :: gs) s = (true :: l2) :: gs2 := by
  obtain ⟨n2, hn2⟩ : ∃ n2,
      min s (((true :: l) :: gs).length - s) = n2 + 1 := by
    refine ⟨min s (((true :: l) :: gs).length - s) - 1, ?_⟩
    simp only [List.length_cons]
    omega
  obtain ⟨b, B, hB⟩ : ∃ b B,
      (((true :: l) :: gs).drop s).take
        (min s (((true :: l) :: gs).length - s)) = b :: B := by
    have hpos : 0 < ((((true :: l) :: gs).drop s).take
        (min s (((true :: l) :: gs).length - s))).length := by
      simp only [List.length_take, List.length_drop, List.length_cons]
      omega
    cases hC : (((true :: l) :: gs).drop s).take
        (min s (((true :: l) :: gs).length - s)) with
    | nil =>
      rw [hC] at hpos
      simp at hpos
    | cons b B => exact ⟨b, B, rfl⟩
  rw [mergeStep_def]
  rw [hn2] at hB ⊢
  rw [hB, List.take_succ_cons, List.zipWith_cons_cons]
  exact ⟨l ++ b, _, rfl⟩

/-- Through the whole pairing loop the first group keeps its leading
true. -/
theorem bjorklundLoop_head :
    ∀ (fuel : Nat) (p : List (List Bool)) (s : Nat) (l : List Bool)
      (gs : List (List Bool)), p = (true :: l) :: gs → 1 ≤ s → s ≤ p.length →
      ∃ l2 gs2, bjorklundLoop fuel p s = (true :: l2) :: gs2 := by
  intro fuel
  induction fuel with
  | zero =>
    intro p s l gs hp _ _
    subst hp
    exact ⟨l, gs, rfl⟩
  | succ fuel ih =>
    intro p s l gs hp h1 h2
    subst hp
    rw [bjorklundLoop_succ]
    split_ifs with hstop
    · exact ⟨l, gs, rfl⟩
    · obtain ⟨l3, gs3, hm⟩ := mergeStep_head l gs s h1 (by
        simp only [List.length_cons] at hstop
        omega)
      refine ih _ _ l3 gs3 hm ?_ ?_
      · omega
      · rw [mergeStep_length ((true :: l) :: gs) s h2]
        omega

/-- C10: for every steps ≥ 1 and 1 ≤ pulses ≤ steps, the unrotated
pattern euclidean steps pulses 0 succeeds and has a pulse at index 0. -/
theorem euclidean_starts_with_pulse (steps pulses : Nat)
    (h1 : 1 ≤ pulses) (h2 : pulses ≤ steps) :
    ∃ pat, euclidean steps pulses 0 = Except.ok pat ∧
      pat.head? = some true := by
  have hb : pulses = steps ∨ (bjorklund steps pulses).head? = some true := by
    by_cases hps : pulses = steps
    · exact Or.inl hps
    · refine Or.inr ?_
      unfold bjorklund
      split_ifs with hb1 hb2
      · obtain ⟨m, rfl⟩ : ∃ m, steps = m + 1 := ⟨steps - 1, by omega⟩
        simp [List.replicate_succ]
      · rcases hb2 with h | h <;> omega
      · unfold bjorklundGeneral
        obtain ⟨m1, hm1⟩ : ∃ m1, pulses = m1 + 1 := ⟨pulses - 1, by omega⟩
        have hinit : bjorklundInit steps pulses = (true :: []) ::
            (List.replicate m1 [true] ++
              List.replicate (steps - pulses) [false]) := by
          rw [bjorklundInit, hm1, List.replicate_succ]
          rfl
        obtain ⟨l2, gs2, hres⟩ := bjorklundLoop_head steps
          (bjorklundInit steps pulses) pulses [] _ hinit (by omega)
          (by simp [bjorklundInit])
        rw [hres]
        simp
  unfold euclidean
  have h0 : ¬ steps = 0 := by omega
  have hlt : ¬ steps < pulses := by omega
  rw [if_neg h0, if_neg hlt, Nat.zero_mod]
  split_ifs with hp0 hps
  · omega
  · refine ⟨_, rfl, ?_⟩
    obtain ⟨m, rfl⟩ : ∃ m, steps = m + 1 := ⟨steps - 1, by omega⟩
    simp [List.replicate_succ]
  · omega
  · refine ⟨_, rfl, ?_⟩
    rcases hb with hb | hb
    · omega
    · exact hb

/-- Witness for euclidean_starts_with_pulse at steps 8, pulses 3. -/
theorem euclidean_starts_with_pulse_witness :
    ∃ pat, euclidean 8 3 0 = Except.ok pat ∧ pat.head? = some true :=
  euclidean_starts_with_pulse 8 3 (by decide) (by decide)

/-- C4: euclidean fails (and produces no pattern) exactly when
steps = 0 or pulses > steps; in particular euclidean 0 0 0 and
euclidean 8 9 0 both fail, each at its own validation check. -/
theorem euclidean_error_iff_invalid :
    (∀ steps pulses rotation,
      (∃ e, euclidean steps pulses rotation = Except.error e) ↔
        steps = 0 ∨ steps < pulses) ∧
    euclidean 0 0 0 = Except.error RhythmError.stepsZero ∧
    euclidean 8 9 0 = Except.error RhythmError.pulsesGtSteps := by
  refine ⟨?_, rfl, rfl⟩
  intro steps pulses rotation
  unfold euclidean
  split_ifs with h0 h1 h2 h3 <;> simp_all

/-- C5: for every steps n ≥ 1 and any rotation, euclidean n 0 rotation
is the all-false pattern of length n and euclidean n n rotation is the
all-true pattern of length n; no error occurs and the rotation argument
is irrelevant (it is not even inspected on these paths). -/
theorem euclidean_degenerate (n rotation : Nat) (h : 1 ≤ n) :
    euclidean n 0 rotation = Except.ok (List.replicate n false) ∧
    euclidean n n rotation = Except.ok (List.replicate n true) := by
  have h0 : ¬ n = 0 := by omega
  constructor
  · unfold euclidean
    split_ifs <;> simp_all
  · unfold euclidean
    split_ifs <;> simp_all

/-- Witness for euclidean_degenerate at n = 4, rotation = 7. -/
theorem euclidean_degenerate_witness :
    euclidean 4 0 7 = Except.ok (List.replicate 4 false) ∧
    euclidean 4 4 7 = Except.ok (List.replicate 4 true) :=
  euclidean_degenerate 4 7 (by decide)

/-- Rust's normalisation ((k % len) + len) % len with truncated
remainders computes the Euclidean remainder of k modulo len. -/
theorem rust_normalize_eq_emod (k len : Int) (h : 0 < len) :
    ((k.tmod len) + len).tmod len = k % len := by
  have hub : k.tmod len < len := Int.tmod_lt_of_pos k h
  have hlb : -len < k.tmod len := by
    rcases le_or_lt 0 k with hk | hk
    · have hnn := Int.tmod_nonneg len hk
      omega
    · have h2 : (-k).tmod len < len := Int.tmod_lt_of_pos (-k) h
      rw [Int.tmod_def, Int.neg_tdiv, mul_neg] at h2
      rw [Int.tmod_def]
      omega
  have hnn2 : 0 ≤ k.tmod len + len := by omega
  rw [Int.tmod_eq_emod hnn2 (le_of_lt h)]
  conv_lhs => rw [Int.tmod_def]
  have heq : k - len * k.tdiv len + len = k + len * (1 - k.tdiv len) := by
    ring
  rw [heq, Int.add_mul_emod_self_left]

/-- On a nonempty pattern, rotate_pattern is Mathlib's List.rotate at
the Euclidean remainder of the amount. -/
theorem rotate_pattern_eq_rotate (p : List Bool) (k : Int) (h : p ≠ []) :
    rotate_pattern p k = p.rotate (k % (p.length : Int)).toNat := by
  simp only [rotate_pattern]
  rw [if_neg (by simpa using h)]
  have hlen : 0 < (p.length : Int) := by
    simpa using List.length_pos.mpr h
  rw [rust_normalize_eq_emod k _ hlen]
  have hle : (k % (p.length : Int)).toNat ≤ p.length := by
    have hone := Int.emod_lt_of_pos k hlen
    have h2 := Int.emod_nonneg k (by omega : (p.length : Int) ≠ 0)
    omega
  rw [List.rotate_eq_drop_append_take hle]

/-- C6: rotating any pattern (empty included) left by any integer k and
then by -k returns the original pattern. -/
theorem rotate_pattern_round_trip :
    ∀ (p : List Bool) (k : Int),
      rotate_pattern (rotate_pattern p k) (-k) = p := by
  intro p k
  by_cases hp : p = []
  · subst hp
    rfl
  · have h1 : rotate_pattern p k = p.rotate (k % (p.length : Int)).toNat :=
      rotate_pattern_eq_rotate p k hp

    have hlen1 : (rotate_pattern p k).length = p.length := by
      rw [h1, List.length_rotate]
    have hp2 : rotate_pattern p k ≠ [] := by
      intro hc
      rw [hc] at hlen1
      exact hp (List.length_eq_zero.mp hlen1.symm)
    rw [rotate_pattern_eq_rotate _ _ hp2, hlen1, h1, List.rotate_rotate]
    have hL : 0 < (p.length : Int) := by
      simpa using List.length_pos.mpr hp
    have ha : 0 ≤ k % (p.length : Int) := Int.emod_nonneg k (by omega)
    have hb : 0 ≤ (-k) % (p.length : Int) := Int.emod_nonneg (-k) (by omega)
    have hua : k % (p.length : Int) < (p.length : Int) :=
      Int.emod_lt_of_pos k hL
    have hub : (-k) % (p.length : Int) < (p.length : Int) :=
      Int.emod_lt_of_pos (-k) hL
    have hab : (k % (p.length : Int) + (-k) % (p.length : Int))
        % (p.length : Int) = 0 := by
      rw [← Int.add_emod]
      simp
    obtain ⟨c, hc⟩ := Int.dvd_of_emod_eq_zero hab
    have hc01 : c = 0 ∨ c = 1 := by
      by_contra hcc
      push_neg at hcc
      obtain ⟨hc0, hc1⟩ := hcc
      rcases lt_or_gt_of_ne hc0 with hneg | hposgt
      · have hm : (p.length : Int) * c ≤ (p.length : Int) * (-1) :=
          mul_le_mul_of_nonneg_left (by omega) (le_of_lt hL)
        omega
      · have hm : (p.length : Int) * 2 ≤ (p.length : Int) * c :=
          mul_le_mul_of_nonneg_left (by omega) (le_of_lt hL)
        omega
    rcases hc01 with hc0 | hc0
    · subst hc0
      have hz : (k % (p.length : Int)).toNat
          + ((-k) % (p.length : Int)).toNat = 0 := by
        omega
      rw [hz, List.rotate_zero]
    · subst hc0
      have hz : (k % (p.length : Int)).toNat
          + ((-k) % (p.length : Int)).toNat = p.length := by
        omega
      rw [hz, List.rotate_length]

/-- C8: pattern_to_string maps each true to the pulse character and each
false to the rest character, preserving order and length, is total for
all character inputs, and renders the tresillo as "x..x..x.". -/
theorem pattern_to_string_spec :
    (∀ pattern pc rc, (pattern_to_string pattern pc rc).length = pattern.length) ∧
    (∀ pattern (pc rc : Char) (i : Nat),
      (pattern_to_string pattern pc rc)[i]? =
        (pattern[i]?).map (fun b => if b then pc else rc)) ∧
    (euclidean 8 3 0).map (fun p => pattern_to_string p 'x' '.') =
      Except.ok ['x', '.', '.', 'x', '.', '.', 'x', '.'] := by
  refine ⟨?_, ?_, rfl⟩
  · intro pattern pc rc
    simp [pattern_to_string]
  · intro pattern pc rc i
    simp [pattern_to_string]

end EuclideanRhythm
